import Mathlib

/-!
Verification of the SIMD cosine-similarity library
(`src/packages/wasm-simd/src/lib.rs`).

Modelling conventions for the shallow embedding:

* `f32` values are modelled by exact rationals `ℚ`.  All arithmetic the
  source performs (`+`, `*`, `/`, fused multiply-add) is therefore exact;
  floating-point rounding is abstracted away.  Division by zero on `ℚ`
  yields `0`, but every division in the source is guarded by a zero test,
  so this convention is never exercised on a guarded path.
* `f32::sqrt` has no rational counterpart, so every operation that calls
  it is parameterised by a function `sq : ℚ → ℚ` standing for the square
  root.  Theorems either hold for all `sq` or state explicitly which
  properties of the square root they use.
* The 4-lane SIMD register `f32x4` is modelled by the structure `Lane4`;
  `mul_add` (lane-wise FMA) and `reduce_add` (horizontal reduction) are
  modelled exactly, and the chunk / remainder loop structure of the
  source is preserved by structural recursion on the chunk count.
* Rust slice indexing `v[i]` is modelled by `List.getD v i 0`; every
  index the source uses is in bounds (out-of-bounds indexing would panic
  in Rust), so the default is never exercised.
* `x.max(-1.0).min(1.0)` is modelled by `rustClamp`.
-/

/-- Model of the `wide::f32x4` lane register. -/
structure Lane4 where
  l0 : ℚ
  l1 : ℚ
  l2 : ℚ
  l3 : ℚ

/-- Model of `f32x4::ZERO`. -/
def Lane4.zero : Lane4 := ⟨0, 0, 0, 0⟩

/-- Model of `f32x4::reduce_add`: horizontal sum of the four lanes. -/
def Lane4.reduceAdd (v : Lane4) : ℚ := v.l0 + v.l1 + v.l2 + v.l3

/-- Model of `a.mul_add(b, c)`: lane-wise fused multiply-add `a*b + c`
(exact on `ℚ`). -/
def Lane4.mulAdd (a b c : Lane4) : Lane4 :=
  ⟨a.l0 * b.l0 + c.l0, a.l1 * b.l1 + c.l1, a.l2 * b.l2 + c.l2, a.l3 * b.l3 + c.l3⟩

/-- Model of loading `v[i..i+4]` into an `f32x4` register
(`f32x4::new(v[i..i+4].try_into().unwrap())`). -/
def laneLoad (v : List ℚ) (i : Nat) : Lane4 :=
  ⟨v.getD i 0, v.getD (i + 1) 0, v.getD (i + 2) 0, v.getD (i + 3) 0⟩

/-- The SIMD chunk loop `for i in (0..simd_len).step_by(4)` accumulating a
single lane sum with `a_chunk.mul_add(b_chunk, acc)`.  `j` is the current
offset, the second `Nat` the number of remaining chunks. -/
def dotChunks (a b : List ℚ) : Nat → Nat → Lane4 → Lane4
  | _, 0, acc => acc
  | j, c + 1, acc =>
      dotChunks a b (j + 4) c (Lane4.mulAdd (laneLoad a j) (laneLoad b j) acc)

/-- The scalar remainder loop `for i in simd_len..len { s += a[i]*b[i] }`.
`i` is the current index, the second `Nat` the number of remaining
elements. -/
def remDot (a b : List ℚ) : Nat → Nat → ℚ → ℚ
  | _, 0, s => s
  | i, c + 1, s => remDot a b (i + 1) c (s + a.getD i 0 * b.getD i 0)

/-- Model of `SIMDMath::dot_product_simd_only` (src/lib.rs lines 22-42):
4-wide FMA chunks over the aligned prefix, horizontal reduction, then a
scalar remainder loop. -/
def dot_product_simd_only (a b : List ℚ) : ℚ :=
  let len := a.length
  let simd_len := len - len % 4
  let lanes := dotChunks a b 0 (simd_len / 4) Lane4.zero
  remDot a b simd_len (len - simd_len) lanes.reduceAdd

/-- Model of `SIMDMath::compute_norm_squared_simd` (src/lib.rs lines
132-149): same chunk / remainder structure with `chunk.mul_add(chunk, acc)`
and `s += v[i]*v[i]`, i.e. both operands are the same vector. -/
def compute_norm_squared_simd (v : List ℚ) : ℚ :=
  let len := v.length
  let simd_len := len - len % 4
  let lanes := dotChunks v v 0 (simd_len / 4) Lane4.zero
  remDot v v simd_len (len - simd_len) lanes.reduceAdd

/-- The combined chunk loop of `cosine_similarity` (src/lib.rs lines
59-69): one pass updating the dot-product lane sum, the `a`-norm lane sum
and the `b`-norm lane sum with three FMAs per chunk. -/
def cosChunks (a b : List ℚ) : Nat → Nat → Lane4 × Lane4 × Lane4 → Lane4 × Lane4 × Lane4
  | _, 0, acc => acc
  | j, c + 1, acc =>
      cosChunks a b (j + 4) c
        (Lane4.mulAdd (laneLoad a j) (laneLoad b j) acc.1,
         Lane4.mulAdd (laneLoad a j) (laneLoad a j) acc.2.1,
         Lane4.mulAdd (laneLoad b j) (laneLoad b j) acc.2.2)

/-- The combined remainder loop of `cosine_similarity` (src/lib.rs lines
77-81). -/
def cosRem (a b : List ℚ) : Nat → Nat → ℚ × ℚ × ℚ → ℚ × ℚ × ℚ
  | _, 0, s => s
  | i, c + 1, s =>
      cosRem a b (i + 1) c
        (s.1 + a.getD i 0 * b.getD i 0,
         s.2.1 + a.getD i 0 * a.getD i 0,
         s.2.2 + b.getD i 0 * b.getD i 0)

/-- Model of Rust `x.max(-1.0).min(1.0)` on exact rationals. -/
def rustClamp (x : ℚ) : ℚ := min (max x (-1)) 1

/-- Model of `SIMDMath::cosine_similarity` (src/lib.rs lines 45-94).
`sq` stands for `f32::sqrt`. -/
def cosine_similarity (sq : ℚ → ℚ) (vec_a vec_b : List ℚ) : ℚ :=
  if vec_a.length ≠ vec_b.length ∨ vec_a.length = 0 then 0
  else
    let len := vec_a.length
    let simd_len := len - len % 4
    let lanes := cosChunks vec_a vec_b 0 (simd_len / 4) (Lane4.zero, Lane4.zero, Lane4.zero)
    let sums := cosRem vec_a vec_b simd_len (len - simd_len)
      (lanes.1.reduceAdd, lanes.2.1.reduceAdd, lanes.2.2.reduceAdd)
    let norm_a := sq sums.2.1
    let norm_b := sq sums.2.2
    if norm_a = 0 ∨ norm_b = 0 then 0
    else rustClamp (sums.1 / (norm_a * norm_b))

/-- The combined chunk loop of `dot_product_and_norm_simd` (src/lib.rs
lines 161-169): dot-product lane sum plus the `a`-norm lane sum. -/
def danChunks (a b : List ℚ) : Nat → Nat → Lane4 × Lane4 → Lane4 × Lane4
  | _, 0, acc => acc
  | j, c + 1, acc =>
      danChunks a b (j + 4) c
        (Lane4.mulAdd (laneLoad a j) (laneLoad b j) acc.1,
         Lane4.mulAdd (laneLoad a j) (laneLoad a j) acc.2)

/-- The combined remainder loop of `dot_product_and_norm_simd`
(src/lib.rs lines 174-177). -/
def danRem (a b : List ℚ) : Nat → Nat → ℚ × ℚ → ℚ × ℚ
  | _, 0, s => s
  | i, c + 1, s =>
      danRem a b (i + 1) c
        (s.1 + a.getD i 0 * b.getD i 0, s.2 + a.getD i 0 * a.getD i 0)

/-- Model of `SIMDMath::dot_product_and_norm_simd` (src/lib.rs lines
153-179): returns the dot product of `a` and `b` together with the
squared norm of `a`, in one combined pass driven by `a.length`. -/
def dot_product_and_norm_simd (a b : List ℚ) : ℚ × ℚ :=
  let len := a.length
  let simd_len := len - len % 4
  let lanes := danChunks a b 0 (simd_len / 4) (Lane4.zero, Lane4.zero)
  danRem a b simd_len (len - simd_len) (lanes.1.reduceAdd, lanes.2.reduceAdd)

/-- Model of the Rust slice `&v[start..start+dim]`. -/
def sliceAt (v : List ℚ) (start dim : Nat) : List ℚ := (v.drop start).take dim

/-- Model of `SIMDMath::batch_similarity` (src/lib.rs lines 97-128). -/
def batch_similarity (sq : ℚ → ℚ) (vectors query : List ℚ) (vector_dim : Nat) : List ℚ :=
  if vector_dim = 0 then []
  else if vectors.length % vector_dim ≠ 0 then []
  else if query.length ≠ vector_dim then []
  else
    let num_vectors := vectors.length / vector_dim
    let query_norm_sq := compute_norm_squared_simd query
    if query_norm_sq = 0 then List.replicate num_vectors 0
    else
      let query_norm := sq query_norm_sq
      (List.range num_vectors).map (fun i =>
        let vector_slice := sliceAt vectors (i * vector_dim) vector_dim
        let dn := dot_product_and_norm_simd vector_slice query
        if dn.2 = 0 then 0
        else rustClamp (dn.1 / (sq dn.2 * query_norm)))

/-- Model of `SIMDMath::similarity_matrix` (src/lib.rs lines 183-244):
precomputes each side's norms once, then emits rows in row-major order,
short-circuiting a whole row when `norm_a = 0` and a single cell when
`norm_b = 0`. -/
def similarity_matrix (sq : ℚ → ℚ) (vectors_a vectors_b : List ℚ) (vector_dim : Nat) : List ℚ :=
  if vector_dim = 0 ∨ vectors_a.length % vector_dim ≠ 0 ∨ vectors_b.length % vector_dim ≠ 0 then []
  else
    let num_a := vectors_a.length / vector_dim
    let num_b := vectors_b.length / vector_dim
    let norms_a := (List.range num_a).map (fun i =>
      sq (compute_norm_squared_simd (sliceAt vectors_a (i * vector_dim) vector_dim)))
    let norms_b := (List.range num_b).map (fun j =>
      sq (compute_norm_squared_simd (sliceAt vectors_b (j * vector_dim) vector_dim)))
    ((List.range num_a).map (fun i =>
      if norms_a.getD i 0 = 0 then List.replicate num_b 0
      else (List.range num_b).map (fun j =>
        if norms_b.getD j 0 = 0 then 0
        else rustClamp (dot_product_simd_only
            (sliceAt vectors_a (i * vector_dim) vector_dim)
            (sliceAt vectors_b (j * vector_dim) vector_dim)
          / (norms_a.getD i 0 * norms_b.getD j 0))))).flatten

/-! Specification-side reference definitions. -/

/-- Purely sequential left-to-right sum of `n` products `a[j+i]*b[j+i]`,
`i = 0, …, n-1`: the reference against which the chunked reductions are
compared. -/
def partialDot (a b : List ℚ) : Nat → Nat → ℚ
  | _, 0 => 0
  | j, n + 1 => a.getD j 0 * b.getD j 0 + partialDot a b (j + 1) n

/-- Sequential dot product over the full index range of `a`. -/
def seqDot (a b : List ℚ) : ℚ := partialDot a b 0 a.length

/-- Naive scalar dot product: elementwise products, summed. -/
def naiveDot (a b : List ℚ) : ℚ := (List.zipWith (fun x y => x * y) a b).sum

/-- Cosine similarity computed from the naive scalar reductions, with the
same guards and clamp as the source. -/
def naive_cosine (sq : ℚ → ℚ) (a b : List ℚ) : ℚ :=
  if a.length ≠ b.length ∨ a.length = 0 then 0
  else
    let norm_a := sq (naiveDot a a)
    let norm_b := sq (naiveDot b b)
    if norm_a = 0 ∨ norm_b = 0 then 0
    else rustClamp (naiveDot a b / (norm_a * norm_b))

/-! Core lemmas: the chunked reductions equal the sequential sum. -/

/-- Splitting a sequential partial sum. -/
theorem partialDot_add (a b : List ℚ) :
    ∀ (m j n : Nat), partialDot a b j (m + n) = partialDot a b j m + partialDot a b (j + m) n := by
  intro m
  induction m with
  | zero => intro j n; simp [partialDot]
  | succ m ih =>
      intro j n
      have h1 : m + 1 + n = (m + n) + 1 := by omega
      rw [h1, partialDot, partialDot, ih (j + 1) n]
      have h2 : j + 1 + m = j + (m + 1) := by omega
      rw [h2]
      ring

/-- The scalar remainder loop adds a sequential partial sum to its
accumulator. -/
theorem remDot_eq (a b : List ℚ) :
    ∀ (c i : Nat) (s : ℚ), remDot a b i c s = s + partialDot a b i c := by
  intro c
  induction c with
  | zero => intro i s; simp [remDot, partialDot]
  | succ c ih =>
      intro i s
      rw [remDot, ih, partialDot]
      ring

/-- One FMA chunk adds four consecutive products to the horizontal sum. -/
theorem reduceAdd_mulAdd (a b : List ℚ) (j : Nat) (acc : Lane4) :
    (Lane4.mulAdd (laneLoad a j) (laneLoad b j) acc).reduceAdd
      = acc.reduceAdd + partialDot a b j 4 := by
  have h4 : partialDot a b j 4
      = a.getD j 0 * b.getD j 0 + (a.getD (j + 1) 0 * b.getD (j + 1) 0
        + (a.getD (j + 1 + 1) 0 * b.getD (j + 1 + 1) 0
        + (a.getD (j + 1 + 1 + 1) 0 * b.getD (j + 1 + 1 + 1) 0 + 0))) := rfl
  have e2 : j + 1 + 1 = j + 2 := by omega
  have e3 : j + 1 + 1 + 1 = j + 3 := by omega
  rw [h4, e2, e3]
  simp [Lane4.mulAdd, Lane4.reduceAdd, laneLoad]
  ring

/-- The chunk loop accumulates the sequential sum over the aligned
prefix. -/
theorem dotChunks_reduceAdd (a b : List ℚ) :
    ∀ (c j : Nat) (acc : Lane4),
      (dotChunks a b j c acc).reduceAdd = acc.reduceAdd + partialDot a b j (4 * c) := by
  intro c
  induction c with
  | zero => intro j acc; simp [dotChunks, partialDot]
  | succ c ih =>
      intro j acc
      rw [dotChunks, ih (j + 4), reduceAdd_mulAdd]
      have h1 : 4 * (c + 1) = 4 + 4 * c := by ring
      rw [h1, partialDot_add a b 4 j (4 * c)]
      ring

/-- Chunk loop, horizontal reduction and remainder loop over a range of
`len` indices together compute the sequential sum of the first `len`
products. -/
theorem chunkRem_eq (a b : List ℚ) (len : Nat) :
    remDot a b (len - len % 4) (len - (len - len % 4))
      ((dotChunks a b 0 ((len - len % 4) / 4) Lane4.zero).reduceAdd)
    = partialDot a b 0 len := by
  rw [remDot_eq, dotChunks_reduceAdd]
  have h0 : Lane4.zero.reduceAdd = 0 := by simp [Lane4.zero, Lane4.reduceAdd]
  have h1 : 4 * ((len - len % 4) / 4) = len - len % 4 := by omega
  rw [h0, h1]
  have h2 : len = (len - len % 4) + (len - (len - len % 4)) := by omega
  conv_rhs => rw [h2]
  rw [partialDot_add]
  ring_nf

/-- The SIMD-only dot product equals the sequential dot product. -/
theorem dot_product_simd_only_eq (a b : List ℚ) :
    dot_product_simd_only a b = seqDot a b :=
  chunkRem_eq a b a.length

/-- The norm-squared helper equals the sequential sum of squares. -/
theorem compute_norm_squared_simd_eq (v : List ℚ) :
    compute_norm_squared_simd v = seqDot v v :=
  chunkRem_eq v v v.length

/-- The fused three-accumulator chunk loop of `cosine_similarity` is the
three single-accumulator chunk loops run componentwise. -/
theorem cosChunks_eq (a b : List ℚ) :
    ∀ (c j : Nat) (acc : Lane4 × Lane4 × Lane4),
      cosChunks a b j c acc
        = (dotChunks a b j c acc.1, dotChunks a a j c acc.2.1, dotChunks b b j c acc.2.2) := by
  intro c
  induction c with
  | zero => intro j acc; rfl
  | succ c ih =>
      intro j acc
      simp only [cosChunks, dotChunks]
      rw [ih]

/-- The fused three-accumulator remainder loop of `cosine_similarity` is
the three scalar remainder loops run componentwise. -/
theorem cosRem_eq (a b : List ℚ) :
    ∀ (c i : Nat) (s : ℚ × ℚ × ℚ),
      cosRem a b i c s = (remDot a b i c s.1, remDot a a i c s.2.1, remDot b b i c s.2.2) := by
  intro c
  induction c with
  | zero => intro i s; rfl
  | succ c ih =>
      intro i s
      simp only [cosRem, remDot]
      rw [ih]

/-- The fused two-accumulator chunk loop of `dot_product_and_norm_simd`
is the two single-accumulator chunk loops run componentwise. -/
theorem danChunks_eq (a b : List ℚ) :
    ∀ (c j : Nat) (acc : Lane4 × Lane4),
      danChunks a b j c acc = (dotChunks a b j c acc.1, dotChunks a a j c acc.2) := by
  intro c
  induction c with
  | zero => intro j acc; rfl
  | succ c ih =>
      intro j acc
      simp only [danChunks, dotChunks]
      rw [ih]

/-- The fused two-accumulator remainder loop of
`dot_product_and_norm_simd` is the two scalar remainder loops run
componentwise. -/
theorem danRem_eq (a b : List ℚ) :
    ∀ (c i : Nat) (s : ℚ × ℚ),
      danRem a b i c s = (remDot a b i c s.1, remDot a a i c s.2) := by
  intro c
  induction c with
  | zero => intro i s; rfl
  | succ c ih =>
      intro i s
      simp only [danRem, remDot]
      rw [ih]

/-- `dot_product_and_norm_simd` returns the sequential dot product and
the sequential squared norm of its first argument. -/
theorem dot_product_and_norm_simd_eq (a b : List ℚ) :
    dot_product_and_norm_simd a b = (seqDot a b, seqDot a a) := by
  simp only [dot_product_and_norm_simd]
  rw [danChunks_eq, danRem_eq]
  exact Prod.ext (chunkRem_eq a b a.length) (chunkRem_eq a a a.length)

/-- Characterisation of `cosine_similarity` on shape-valid inputs: the
guards and clamp applied to the three sequential reductions. -/
theorem cosine_similarity_eq (sq : ℚ → ℚ) (a b : List ℚ)
    (hlen : a.length = b.length) (hne : a.length ≠ 0) :
    cosine_similarity sq a b =
      if sq (seqDot a a) = 0 ∨ sq (seqDot b b) = 0 then 0
      else rustClamp (seqDot a b / (sq (seqDot a a) * sq (seqDot b b))) := by
  simp only [cosine_similarity]
  rw [if_neg (by push_neg; exact ⟨hlen, hne⟩)]
  rw [cosChunks_eq, cosRem_eq]
  simp only
  rw [chunkRem_eq a b a.length, chunkRem_eq a a a.length, chunkRem_eq b b a.length]
  have hb : partialDot b b 0 a.length = seqDot b b := by rw [seqDot, hlen]
  rw [hb]
  rfl

/-- Shifting a sequential partial sum past a cons cell. -/
theorem partialDot_cons (x y : ℚ) (a b : List ℚ) :
    ∀ (n j : Nat), partialDot (x :: a) (y :: b) (j + 1) n = partialDot a b j n := by
  intro n
  induction n with
  | zero => intro j; rfl
  | succ n ih =>
      intro j
      rw [partialDot, partialDot, ih (j + 1)]
      simp [List.getD_cons_succ]

/-- The naive scalar dot product agrees with the sequential partial sum
when the two vectors have the same length. -/
theorem naiveDot_eq (a : List ℚ) :
    ∀ (b : List ℚ), a.length = b.length → naiveDot a b = seqDot a b := by
  induction a with
  | nil =>
      intro b hlen
      simp [naiveDot, seqDot, partialDot]
  | cons x a ih =>
      intro b hlen
      cases b with
      | nil => simp at hlen
      | cons y b =>
          have hlen' : a.length = b.length := by simpa using hlen
          simp only [naiveDot, List.zipWith_cons_cons, List.sum_cons]
          rw [show (List.zipWith (fun x y => x * y) a b).sum = naiveDot a b from rfl]
          rw [ih b hlen']
          simp only [seqDot, List.length_cons, partialDot, List.getD_cons_zero]
          rw [show (0 : Nat) + 1 = 1 from rfl, partialDot_cons x y a b a.length 0]

/-- Sequential sums of squares are nonnegative. -/
theorem partialDot_self_nonneg (v : List ℚ) : ∀ (n j : Nat), 0 ≤ partialDot v v j n := by
  intro n
  induction n with
  | zero => intro j; simp [partialDot]
  | succ n ih =>
      intro j
      rw [partialDot]
      exact add_nonneg (mul_self_nonneg _) (ih (j + 1))

/-- A sequential sum of squares covering a nonzero entry is positive. -/
theorem partialDot_self_pos (v : List ℚ) :
    ∀ (n j i : Nat), i < n → v.getD (j + i) 0 ≠ 0 → 0 < partialDot v v j n := by
  intro n
  induction n with
  | zero => intro j i hi _; omega
  | succ n ih =>
      intro j i hi hx
      rw [partialDot]
      cases i with
      | zero =>
          have hpos : 0 < v.getD j 0 * v.getD j 0 :=
            mul_self_pos.mpr (by simpa using hx)
          exact add_pos_of_pos_of_nonneg hpos (partialDot_self_nonneg v n (j + 1))
      | succ i =>
          have h2 : v.getD (j + 1 + i) 0 ≠ 0 := by
            have he : j + 1 + i = j + (i + 1) := by omega
            rw [he]; exact hx
          exact add_pos_of_nonneg_of_pos (mul_self_nonneg _) (ih (j + 1) i (by omega) h2)

/-- A vector with a nonzero entry has positive sequential squared norm. -/
theorem seqDot_self_pos (v : List ℚ) (x : ℚ) (hx : x ∈ v) (hx0 : x ≠ 0) :
    0 < seqDot v v := by
  obtain ⟨i, hi, hvi⟩ := List.getElem_of_mem hx
  refine partialDot_self_pos v v.length 0 i hi ?_
  rw [Nat.zero_add, List.getD_eq_getElem _ _ hi, hvi]
  exact hx0

/-- The Rust clamp always lands in the closed interval `[-1, 1]`. -/
theorem rustClamp_mem (x : ℚ) : -1 ≤ rustClamp x ∧ rustClamp x ≤ 1 :=
  ⟨le_min (le_max_right x (-1)) (by norm_num), min_le_right _ 1⟩

/-- A dim-sized slice that fits inside the buffer has length `dim`. -/
theorem sliceAt_length (v : List ℚ) (i dim : Nat) (h : (i + 1) * dim ≤ v.length) :
    (sliceAt v (i * dim) dim).length = dim := by
  rw [Nat.succ_mul] at h
  simp only [sliceAt, List.length_take, List.length_drop]
  omega

/-- Reading a mapped range list inside its bounds. -/
theorem getD_map_range {α : Type} (f : Nat → α) (d : α) (n i : Nat) (h : i < n) :
    ((List.range n).map f).getD i d = f i := by
  rw [List.getD_eq_getElem _ _ (by simpa using h)]
  simp

/-- A flattened list of rows of common width has length rows × width. -/
theorem flatten_length_const (w : Nat) :
    ∀ (L : List (List ℚ)), (∀ r ∈ L, r.length = w) → L.flatten.length = L.length * w := by
  intro L
  induction L with
  | nil => intro _; simp
  | cons r L ih =>
      intro h
      simp only [List.flatten_cons, List.length_append, List.length_cons]
      rw [h r (by simp), ih (fun s hs => h s (by simp [hs]))]
      ring

/-- Row-major indexing into a flattened list of rows of common width. -/
theorem flatten_getD (w : Nat) :
    ∀ (L : List (List ℚ)) (i j : Nat), (∀ r ∈ L, r.length = w) → i < L.length → j < w →
      L.flatten.getD (i * w + j) 0 = (L.getD i []).getD j 0 := by
  intro L
  induction L with
  | nil => intro i j _ hi _; simp at hi
  | cons r L ih =>
      intro i j h hi hj
      have hr : r.length = w := h r (by simp)
      cases i with
      | zero =>
          rw [show (0 : Nat) * w + j = j by omega]
          rw [List.flatten_cons, List.getD_append _ _ _ _ (by omega)]
          rfl
      | succ i =>
          have hidx : (i + 1) * w + j = r.length + (i * w + j) := by rw [hr]; ring
          rw [List.flatten_cons, hidx, List.getD_append_right _ _ _ _ (by omega)]
          rw [show r.length + (i * w + j) - r.length = i * w + j by omega]
          rw [List.getD_cons_succ]
          exact ih i j (fun s hs => h s (by simp [hs])) (by simpa using hi) hj

/-- Characterisation of `batch_similarity` on shape-valid inputs in terms
of the sequential reductions. -/
theorem batch_similarity_valid (sq : ℚ → ℚ) (v q : List ℚ) (d : Nat)
    (hd : d ≠ 0) (hdvd : v.length % d = 0) (hq : q.length = d) :
    batch_similarity sq v q d =
      if seqDot q q = 0 then List.replicate (v.length / d) 0
      else (List.range (v.length / d)).map (fun i =>
        if seqDot (sliceAt v (i * d) d) (sliceAt v (i * d) d) = 0 then 0
        else rustClamp (seqDot (sliceAt v (i * d) d) q
          / (sq (seqDot (sliceAt v (i * d) d) (sliceAt v (i * d) d)) * sq (seqDot q q)))) := by
  simp only [batch_similarity, compute_norm_squared_simd_eq, dot_product_and_norm_simd_eq]
  rw [if_neg hd, if_neg (by simp [hdvd]), if_neg (by simp [hq])]

/-- Characterisation of `similarity_matrix` on shape-valid inputs in
terms of the sequential reductions. -/
theorem similarity_matrix_valid (sq : ℚ → ℚ) (A B : List ℚ) (d : Nat)
    (hd : d ≠ 0) (hA : A.length % d = 0) (hB : B.length % d = 0) :
    similarity_matrix sq A B d =
      ((List.range (A.length / d)).map (fun i =>
        if sq (seqDot (sliceAt A (i * d) d) (sliceAt A (i * d) d)) = 0
        then List.replicate (B.length / d) 0
        else (List.range (B.length / d)).map (fun j =>
          if sq (seqDot (sliceAt B (j * d) d) (sliceAt B (j * d) d)) = 0 then 0
          else rustClamp (seqDot (sliceAt A (i * d) d) (sliceAt B (j * d) d)
            / (sq (seqDot (sliceAt A (i * d) d) (sliceAt A (i * d) d))
              * sq (seqDot (sliceAt B (j * d) d) (sliceAt B (j * d) d))))))).flatten := by
  simp only [similarity_matrix, compute_norm_squared_simd_eq, dot_product_simd_only_eq]
  rw [if_neg (by push_neg; exact ⟨hd, by simp [hA], by simp [hB]⟩)]
  apply congrArg List.flatten
  apply List.map_congr_left
  intro i hi
  have hiA : i < A.length / d := List.mem_range.mp hi
  simp only [getD_map_range _ _ _ _ hiA]
  by_cases hz : sq (seqDot (sliceAt A (i * d) d) (sliceAt A (i * d) d)) = 0
  · rw [if_pos hz, if_pos hz]
  · rw [if_neg hz, if_neg hz]
    apply List.map_congr_left
    intro j hj
    simp only [getD_map_range _ _ _ _ (List.mem_range.mp hj)]

/-- Sequential squared norms are nonnegative. -/
theorem seqDot_self_nonneg (v : List ℚ) : 0 ≤ seqDot v v :=
  partialDot_self_nonneg v v.length 0

/-- The i-th dim-slice of a buffer whose length is a multiple of dim fits
inside the buffer. -/
theorem slice_fits (v : List ℚ) (d i : Nat) (hdvd : v.length % d = 0)
    (hi : i < v.length / d) : (i + 1) * d ≤ v.length := by
  have hdv : d ∣ v.length := Nat.dvd_of_mod_eq_zero hdvd
  calc (i + 1) * d ≤ (v.length / d) * d := Nat.mul_le_mul_right _ (by omega)
    _ = v.length := Nat.div_mul_cancel hdv

/-- Reading any position of a list whose elements all lie in `[-1, 1]`
(with default `0`) yields a value in `[-1, 1]`. -/
theorem getD_bounds_of_forall (l : List ℚ) (h : ∀ x ∈ l, -1 ≤ x ∧ x ≤ 1) (i : Nat) :
    -1 ≤ l.getD i 0 ∧ l.getD i 0 ≤ 1 := by
  by_cases hi : i < l.length
  · rw [List.getD_eq_getElem _ _ hi]
    exact h _ (List.getElem_mem hi)
  · rw [List.getD_eq_default _ _ (by omega)]
    norm_num

/-! Claim theorems. -/

/-- C2: for equal-length, non-empty inputs whose computed norms are both
nonzero, `cosine_similarity` returns a value in the closed interval
`[-1, 1]`. -/
theorem C2_cosine_result_clamped (sq : ℚ → ℚ) (a b : List ℚ)
    (hlen : a.length = b.length) (hne : a.length ≠ 0)
    (hna : sq (compute_norm_squared_simd a) ≠ 0)
    (hnb : sq (compute_norm_squared_simd b) ≠ 0) :
    -1 ≤ cosine_similarity sq a b ∧ cosine_similarity sq a b ≤ 1 := by
  rw [cosine_similarity_eq sq a b hlen hne]
  rw [compute_norm_squared_simd_eq] at hna hnb
  rw [if_neg (by push_neg; exact ⟨hna, hnb⟩)]
  exact rustClamp_mem _

/-- Witness for C2 at `sq = id`, `a = b = [1]`. -/
theorem C2_cosine_result_clamped_witness :
    (([1] : List ℚ).length = ([1] : List ℚ).length ∧ ([1] : List ℚ).length ≠ 0
      ∧ (fun x : ℚ => x) (compute_norm_squared_simd [1]) ≠ 0)
    ∧ -1 ≤ cosine_similarity (fun x => x) [1] [1]
    ∧ cosine_similarity (fun x => x) [1] [1] ≤ 1 := by
  have h1 : compute_norm_squared_simd [1] = 1 := by
    norm_num [compute_norm_squared_simd, dotChunks, remDot, laneLoad, Lane4.zero,
      Lane4.mulAdd, Lane4.reduceAdd]
  exact ⟨⟨rfl, by norm_num, by simp [h1]⟩,
    C2_cosine_result_clamped (fun x => x) [1] [1] rfl (by norm_num)
      (by simp [h1]) (by simp [h1])⟩

/-- C3: on mismatched lengths or an empty input, `cosine_similarity`
returns `0`. -/
theorem C3_shape_mismatch_returns_zero (sq : ℚ → ℚ) (a b : List ℚ)
    (h : a.length ≠ b.length ∨ a = [] ∨ b = []) :
    cosine_similarity sq a b = 0 := by
  have hc : a.length ≠ b.length ∨ a.length = 0 := by
    rcases h with h | h | h
    · exact Or.inl h
    · exact Or.inr (by simp [h])
    · by_cases ha : a.length = 0
      · exact Or.inr ha
      · refine Or.inl ?_
        have : b.length = 0 := by simp [h]
        omega
  simp only [cosine_similarity]
  rw [if_pos hc]

/-- Witness for C3 at `sq = id`, `a = [1]`, `b = [1, 2]`. -/
theorem C3_shape_mismatch_returns_zero_witness :
    (([1] : List ℚ).length ≠ ([1, 2] : List ℚ).length)
    ∧ cosine_similarity (fun x => x) [1] [1, 2] = 0 :=
  ⟨by norm_num,
    C3_shape_mismatch_returns_zero (fun x => x) [1] [1, 2] (Or.inl (by norm_num))⟩

/-- C4: on zero dimension, a candidate buffer whose length is not a
multiple of the dimension, or a query whose length differs from the
dimension, `batch_similarity` returns the empty sequence. -/
theorem C4_batch_invalid_shape_empty (sq : ℚ → ℚ) (v q : List ℚ) (d : Nat)
    (h : d = 0 ∨ v.length % d ≠ 0 ∨ q.length ≠ d) :
    batch_similarity sq v q d = [] := by
  simp only [batch_similarity]
  rcases h with h | h | h
  · rw [if_pos h]
  · by_cases hd : d = 0
    · rw [if_pos hd]
    · rw [if_neg hd, if_pos h]
  · by_cases hd : d = 0
    · rw [if_pos hd]
    · by_cases h2 : v.length % d ≠ 0
      · rw [if_neg hd, if_pos h2]
      · rw [if_neg hd, if_neg h2, if_pos h]

/-- Witness for C4 at `sq = id`, a 3-element buffer with dimension 2. -/
theorem C4_batch_invalid_shape_empty_witness :
    (([1, 2, 3] : List ℚ).length % 2 ≠ 0)
    ∧ batch_similarity (fun x => x) [1, 2, 3] [1, 2] 2 = [] :=
  ⟨by norm_num,
    C4_batch_invalid_shape_empty (fun x => x) [1, 2, 3] [1, 2] 2 (Or.inr (Or.inl (by norm_num)))⟩

/-- C5: on shape-valid inputs whose query has computed squared norm zero,
`batch_similarity` returns `len(vectors)/dim` zeros. -/
theorem C5_batch_zero_query_all_zeros (sq : ℚ → ℚ) (v q : List ℚ) (d : Nat)
    (hd : 0 < d) (hdvd : v.length % d = 0) (hq : q.length = d)
    (hz : compute_norm_squared_simd q = 0) :
    batch_similarity sq v q d = List.replicate (v.length / d) 0 := by
  rw [batch_similarity_valid sq v q d (by omega) hdvd hq]
  rw [if_pos (by rw [← compute_norm_squared_simd_eq]; exact hz)]

/-- Witness for C5 at `sq = id`, two 1-dimensional candidates and the
zero query. -/
theorem C5_batch_zero_query_all_zeros_witness :
    (0 < 1 ∧ ([1, 2] : List ℚ).length % 1 = 0 ∧ ([0] : List ℚ).length = 1
      ∧ compute_norm_squared_simd [0] = 0)
    ∧ batch_similarity (fun x => x) [1, 2] [0] 1 = List.replicate 2 0 := by
  have hz : compute_norm_squared_simd [0] = 0 := by
    norm_num [compute_norm_squared_simd, dotChunks, remDot, laneLoad, Lane4.zero,
      Lane4.mulAdd, Lane4.reduceAdd]
  refine ⟨⟨by norm_num, by norm_num, by norm_num, hz⟩, ?_⟩
  have h := C5_batch_zero_query_all_zeros (fun x => x) [1, 2] [0] 1
    (by norm_num) (by norm_num) (by norm_num) hz
  simpa using h

/-- C6: on equal-length, non-empty inputs, if either computed norm
(`sq` of the computed squared norm) is zero, `cosine_similarity` returns
`0` (no NaN or infinity exists in the exact model). -/
theorem C6_zero_norm_guard (sq : ℚ → ℚ) (a b : List ℚ)
    (hlen : a.length = b.length) (hne : a.length ≠ 0)
    (h : sq (compute_norm_squared_simd a) = 0 ∨ sq (compute_norm_squared_simd b) = 0) :
    cosine_similarity sq a b = 0 := by
  rw [cosine_similarity_eq sq a b hlen hne]
  rw [compute_norm_squared_simd_eq, compute_norm_squared_simd_eq] at h
  rw [if_pos h]

/-- Witness for C6 at `sq = id`, `a = [0,0,0,0]`, `b = [1,2,3,4]` (the
spec's own example). -/
theorem C6_zero_norm_guard_witness :
    ((fun x : ℚ => x) (compute_norm_squared_simd [0, 0, 0, 0]) = 0)
    ∧ cosine_similarity (fun x => x) [0, 0, 0, 0] [1, 2, 3, 4] = 0 := by
  have hz : compute_norm_squared_simd [0, 0, 0, 0] = 0 := by
    norm_num [compute_norm_squared_simd, dotChunks, remDot, laneLoad, Lane4.zero,
      Lane4.mulAdd, Lane4.reduceAdd]
  exact ⟨by simp [hz],
    C6_zero_norm_guard (fun x => x) [0, 0, 0, 0] [1, 2, 3, 4] (by norm_num) (by norm_num)
      (Or.inl (by simp [hz]))⟩

/-- C7: for equal-length, non-empty inputs whose length is not a multiple
of the lane width 4, the chunked dot product and squared norms equal the
naive sequential scalar computation (exactly, in the exact-arithmetic
model, hence within any tolerance), and so does the cosine similarity for
every square-root function. -/
theorem C7_remainder_matches_naive (a b : List ℚ)
    (hlen : a.length = b.length) (hne : a.length ≠ 0) (h4 : a.length % 4 ≠ 0) :
    dot_product_simd_only a b = naiveDot a b
    ∧ compute_norm_squared_simd a = naiveDot a a
    ∧ compute_norm_squared_simd b = naiveDot b b
    ∧ ∀ sq : ℚ → ℚ, cosine_similarity sq a b = naive_cosine sq a b := by
  refine ⟨?_, ?_, ?_, ?_⟩
  · rw [dot_product_simd_only_eq, naiveDot_eq a b hlen]
  · rw [compute_norm_squared_simd_eq, naiveDot_eq a a rfl]
  · rw [compute_norm_squared_simd_eq, naiveDot_eq b b rfl]
  · intro sq
    have hguard : ¬(a.length ≠ b.length ∨ a.length = 0) := by push_neg; exact ⟨hlen, hne⟩
    rw [cosine_similarity_eq sq a b hlen hne]
    simp only [naive_cosine]
    rw [if_neg hguard]
    rw [naiveDot_eq a b hlen, naiveDot_eq a a rfl, naiveDot_eq b b rfl]

/-- Witness for C7 at length-5 vectors (5 mod 4 = 1). -/
theorem C7_remainder_matches_naive_witness :
    (([1, 2, 3, 4, 5] : List ℚ).length = ([5, 4, 3, 2, 1] : List ℚ).length
      ∧ ([1, 2, 3, 4, 5] : List ℚ).length % 4 ≠ 0)
    ∧ dot_product_simd_only [1, 2, 3, 4, 5] [5, 4, 3, 2, 1] = naiveDot [1, 2, 3, 4, 5] [5, 4, 3, 2, 1]
    ∧ cosine_similarity (fun x => x) [1, 2, 3, 4, 5] [5, 4, 3, 2, 1]
        = naive_cosine (fun x => x) [1, 2, 3, 4, 5] [5, 4, 3, 2, 1] := by
  have h := C7_remainder_matches_naive [1, 2, 3, 4, 5] [5, 4, 3, 2, 1]
    (by norm_num) (by norm_num) (by norm_num)
  exact ⟨⟨by norm_num, by norm_num⟩, h.1, h.2.2.2 (fun x => x)⟩

/-- C8: `batch_similarity(v, v, len(v))` on a non-zero vector `v` returns
exactly `[1]`, provided `sq` is an exact square root at the computed
squared norm. -/
theorem C8_self_batch_returns_one (sq : ℚ → ℚ) (v : List ℚ)
    (hne : v.length ≠ 0) (hx : ∃ x ∈ v, x ≠ 0)
    (hsq : sq (compute_norm_squared_simd v) * sq (compute_norm_squared_simd v)
      = compute_norm_squared_simd v) :
    batch_similarity sq v v v.length = [1] := by
  obtain ⟨x, hxv, hx0⟩ := hx
  have hpos : 0 < seqDot v v := seqDot_self_pos v x hxv hx0
  have hz : ¬ seqDot v v = 0 := ne_of_gt hpos
  have hs : sq (seqDot v v) * sq (seqDot v v) = seqDot v v := by
    rw [← compute_norm_squared_simd_eq]; exact hsq
  rw [batch_similarity_valid sq v v v.length hne (by simp) rfl]
  rw [if_neg hz]
  have h1 : v.length / v.length = 1 := Nat.div_self (Nat.pos_of_ne_zero hne)
  rw [h1]
  have hr1 : List.range 1 = [0] := rfl
  rw [hr1]
  simp only [List.map_cons, List.map_nil]
  have hslice : sliceAt v (0 * v.length) v.length = v := by simp [sliceAt]
  rw [hslice, if_neg hz, hs, div_self hz]
  norm_num [rustClamp]

/-- Witness for C8 at `v = [3]` with a square root exact at `9`. -/
theorem C8_self_batch_returns_one_witness :
    (([3] : List ℚ).length ≠ 0 ∧ (∃ x ∈ ([3] : List ℚ), x ≠ 0)
      ∧ (fun x : ℚ => if x = 9 then 3 else x) (compute_norm_squared_simd [3])
          * (fun x : ℚ => if x = 9 then 3 else x) (compute_norm_squared_simd [3])
          = compute_norm_squared_simd [3])
    ∧ batch_similarity (fun x : ℚ => if x = 9 then 3 else x) [3] [3] ([3] : List ℚ).length
        = [1] := by
  have h9 : compute_norm_squared_simd [3] = 9 := by
    norm_num [compute_norm_squared_simd, dotChunks, remDot, laneLoad, Lane4.zero,
      Lane4.mulAdd, Lane4.reduceAdd]
  refine ⟨⟨by norm_num, ⟨3, by norm_num, by norm_num⟩, by rw [h9]; norm_num⟩, ?_⟩
  exact C8_self_batch_returns_one (fun x : ℚ => if x = 9 then 3 else x) [3]
    (by norm_num) ⟨3, by norm_num, by norm_num⟩ (by rw [h9]; norm_num)

/-- C9: on shape-valid inputs, `batch_similarity` equals the sequence of
`cosine_similarity` applied to each dim-length candidate slice paired
with the query, in input order, for any `sq` with the square-root zero
law `sq x = 0 ↔ x = 0` on nonnegative inputs. -/
theorem C9_batch_refines_pairwise (sq : ℚ → ℚ)
    (hsq : ∀ x : ℚ, 0 ≤ x → (sq x = 0 ↔ x = 0))
    (v q : List ℚ) (d : Nat) (hd : 0 < d) (hdvd : v.length % d = 0) (hq : q.length = d) :
    batch_similarity sq v q d
      = (List.range (v.length / d)).map
          (fun i => cosine_similarity sq (sliceAt v (i * d) d) q) := by
  rw [batch_similarity_valid sq v q d (by omega) hdvd hq]
  by_cases hqz : seqDot q q = 0
  · rw [if_pos hqz]
    symm
    have hall : ∀ i ∈ List.range (v.length / d),
        cosine_similarity sq (sliceAt v (i * d) d) q = (fun _ : Nat => (0 : ℚ)) i := by
      intro i hi
      have hiv := List.mem_range.mp hi
      have hsl : (sliceAt v (i * d) d).length = d :=
        sliceAt_length v i d (slice_fits v d i hdvd hiv)
      rw [cosine_similarity_eq sq _ q (by rw [hsl, hq]) (by rw [hsl]; omega)]
      exact if_pos (Or.inr ((hsq (seqDot q q) (seqDot_self_nonneg q)).mpr hqz))
    rw [List.map_congr_left hall, List.map_const', List.length_range]
  · rw [if_neg hqz]
    apply List.map_congr_left
    intro i hi
    have hiv := List.mem_range.mp hi
    have hsl : (sliceAt v (i * d) d).length = d :=
      sliceAt_length v i d (slice_fits v d i hdvd hiv)
    rw [cosine_similarity_eq sq _ q (by rw [hsl, hq]) (by rw [hsl]; omega)]
    by_cases hss : seqDot (sliceAt v (i * d) d) (sliceAt v (i * d) d) = 0
    · rw [if_pos hss, if_pos (Or.inl ((hsq _ (seqDot_self_nonneg _)).mpr hss))]
    · have h1 : sq (seqDot (sliceAt v (i * d) d) (sliceAt v (i * d) d)) ≠ 0 :=
        fun h => hss ((hsq _ (seqDot_self_nonneg _)).mp h)
      have h2 : sq (seqDot q q) ≠ 0 :=
        fun h => hqz ((hsq _ (seqDot_self_nonneg _)).mp h)
      rw [if_neg hss, if_neg (by push_neg; exact ⟨h1, h2⟩)]

/-- Witness for C9 at `sq = id`, two 1-dimensional candidates. -/
theorem C9_batch_refines_pairwise_witness :
    ((∀ x : ℚ, 0 ≤ x → ((fun y : ℚ => y) x = 0 ↔ x = 0)) ∧ 0 < 1
      ∧ ([1, 0] : List ℚ).length % 1 = 0 ∧ ([1] : List ℚ).length = 1)
    ∧ batch_similarity (fun y : ℚ => y) [1, 0] [1] 1
        = (List.range (([1, 0] : List ℚ).length / 1)).map
            (fun i => cosine_similarity (fun y : ℚ => y) (sliceAt [1, 0] (i * 1) 1) [1]) :=
  ⟨⟨fun _ _ => Iff.rfl, by norm_num, by norm_num, by norm_num⟩,
    C9_batch_refines_pairwise (fun y : ℚ => y) (fun _ _ => Iff.rfl) [1, 0] [1] 1
      (by norm_num) (by norm_num) (by norm_num)⟩

/-- C1: on shape-valid inputs, `similarity_matrix` has length
`numA * numB` and its row-major entry at `i*numB + j` equals
`cosine_similarity` of the i-th slice of `A` and the j-th slice of `B`. -/
theorem C1_matrix_refines_pairwise (sq : ℚ → ℚ) (A B : List ℚ) (d : Nat)
    (hd : 0 < d) (hA : A.length % d = 0) (hB : B.length % d = 0) :
    (similarity_matrix sq A B d).length = (A.length / d) * (B.length / d)
    ∧ ∀ i j, i < A.length / d → j < B.length / d →
        (similarity_matrix sq A B d).getD (i * (B.length / d) + j) 0
          = cosine_similarity sq (sliceAt A (i * d) d) (sliceAt B (j * d) d) := by
  rw [similarity_matrix_valid sq A B d (by omega) hA hB]
  have hrows : ∀ r ∈ (List.range (A.length / d)).map (fun i =>
        if sq (seqDot (sliceAt A (i * d) d) (sliceAt A (i * d) d)) = 0
        then List.replicate (B.length / d) 0
        else (List.range (B.length / d)).map (fun j =>
          if sq (seqDot (sliceAt B (j * d) d) (sliceAt B (j * d) d)) = 0 then 0
          else rustClamp (seqDot (sliceAt A (i * d) d) (sliceAt B (j * d) d)
            / (sq (seqDot (sliceAt A (i * d) d) (sliceAt A (i * d) d))
              * sq (seqDot (sliceAt B (j * d) d) (sliceAt B (j * d) d)))))),
      r.length = B.length / d := by
    intro r hr
    obtain ⟨i, _, hri⟩ := List.mem_map.mp hr
    rw [← hri]
    by_cases hza : sq (seqDot (sliceAt A (i * d) d) (sliceAt A (i * d) d)) = 0
    · simp [hza]
    · simp [hza]
  constructor
  · rw [flatten_length_const _ _ hrows, List.length_map, List.length_range]
  · intro i j hi hj
    rw [flatten_getD _ _ i j hrows (by simp [hi]) hj]
    rw [getD_map_range _ _ _ _ hi]
    have hslA : (sliceAt A (i * d) d).length = d := sliceAt_length A i d (slice_fits A d i hA hi)
    have hslB : (sliceAt B (j * d) d).length = d := sliceAt_length B j d (slice_fits B d j hB hj)
    rw [cosine_similarity_eq sq _ _ (by rw [hslA, hslB]) (by rw [hslA]; omega)]
    by_cases hza : sq (seqDot (sliceAt A (i * d) d) (sliceAt A (i * d) d)) = 0
    · rw [if_pos hza, if_pos (Or.inl hza)]
      simp
    · rw [if_neg hza, getD_map_range _ _ _ _ hj]
      by_cases hzb : sq (seqDot (sliceAt B (j * d) d) (sliceAt B (j * d) d)) = 0
      · rw [if_pos hzb, if_pos (Or.inr hzb)]
      · rw [if_neg hzb, if_neg (by push_neg; exact ⟨hza, hzb⟩)]

/-- Witness for C1 at `sq = id`, `A = [1,0,0,0, 0,1,0,0]`, `B = [1,0,0,0]`,
dim 4 (the spec's own matrix example), checked at entry (1, 0). -/
theorem C1_matrix_refines_pairwise_witness :
    (0 < 4 ∧ ([1, 0, 0, 0, 0, 1, 0, 0] : List ℚ).length % 4 = 0
      ∧ ([1, 0, 0, 0] : List ℚ).length % 4 = 0)
    ∧ (similarity_matrix (fun x => x) [1, 0, 0, 0, 0, 1, 0, 0] [1, 0, 0, 0] 4).length
        = (([1, 0, 0, 0, 0, 1, 0, 0] : List ℚ).length / 4) * (([1, 0, 0, 0] : List ℚ).length / 4)
    ∧ (similarity_matrix (fun x => x) [1, 0, 0, 0, 0, 1, 0, 0] [1, 0, 0, 0] 4).getD
          (1 * (([1, 0, 0, 0] : List ℚ).length / 4) + 0) 0
        = cosine_similarity (fun x => x)
            (sliceAt [1, 0, 0, 0, 0, 1, 0, 0] (1 * 4) 4) (sliceAt [1, 0, 0, 0] (0 * 4) 4) := by
  have h := C1_matrix_refines_pairwise (fun x => x) [1, 0, 0, 0, 0, 1, 0, 0] [1, 0, 0, 0] 4
    (by norm_num) (by norm_num) (by norm_num)
  exact ⟨⟨by norm_num, by norm_num, by norm_num⟩, h.1, h.2 1 0 (by norm_num) (by norm_num)⟩

/-- C10: every score emitted by `cosine_similarity`, `batch_similarity`
and `similarity_matrix` lies in the closed interval `[-1, 1]`, for all
inputs and any square-root function: each emitted value is either the
sentinel `0` or passes through the clamp. -/
theorem C10_all_scores_clamped :
    (∀ (sq : ℚ → ℚ) (a b : List ℚ),
      -1 ≤ cosine_similarity sq a b ∧ cosine_similarity sq a b ≤ 1)
    ∧ (∀ (sq : ℚ → ℚ) (v q : List ℚ) (d i : Nat),
      -1 ≤ (batch_similarity sq v q d).getD i 0 ∧ (batch_similarity sq v q d).getD i 0 ≤ 1)
    ∧ (∀ (sq : ℚ → ℚ) (A B : List ℚ) (d i : Nat),
      -1 ≤ (similarity_matrix sq A B d).getD i 0
        ∧ (similarity_matrix sq A B d).getD i 0 ≤ 1) := by
  refine ⟨?_, ?_, ?_⟩
  · intro sq a b
    simp only [cosine_similarity]
    split
    · norm_num
    · split
      · norm_num
      · exact rustClamp_mem _
  · intro sq v q d i
    refine getD_bounds_of_forall _ ?_ i
    intro x hx
    simp only [batch_similarity] at hx
    split at hx
    · simp at hx
    · split at hx
      · simp at hx
      · split at hx
        · simp at hx
        · split at hx
          · rw [List.eq_of_mem_replicate hx]; norm_num
          · obtain ⟨k, _, hkx⟩ := List.mem_map.mp hx
            rw [← hkx]
            split
            · norm_num
            · exact rustClamp_mem _
  · intro sq A B d i
    refine getD_bounds_of_forall _ ?_ i
    intro x hx
    simp only [similarity_matrix] at hx
    split at hx
    · simp at hx
    · rw [List.mem_flatten] at hx
      obtain ⟨r, hr, hxr⟩ := hx
      obtain ⟨k, _, hkr⟩ := List.mem_map.mp hr
      rw [← hkr] at hxr
      by_cases hz : (((List.range (A.length / d)).map (fun i =>
          sq (compute_norm_squared_simd (sliceAt A (i * d) d)))).getD k 0) = 0
      · rw [if_pos hz] at hxr
        rw [List.eq_of_mem_replicate hxr]; norm_num
      · rw [if_neg hz] at hxr
        obtain ⟨m, _, hmx⟩ := List.mem_map.mp hxr
        rw [← hmx]
        split
        · norm_num
        · exact rustClamp_mem _
